import Mathlib

/-!
Shallow embedding of the tap-gitlab connector core (tap_gitlab/client.py).

The Python stream classes are modelled as pure Lean functions over lists and
strings.  Machine-level helpers of the Python standard library that the code
calls (str.replace, urllib.parse.quote_plus, urllib.parse.parse_qs,
urllib.parse.urlparse, str.split, str.rstrip, dict.update) are embedded
character-wise, faithful to their CPython semantics on the inputs the
connector produces (percent sequences are decoded byte-wise; multi-byte
UTF-8 percent sequences are decoded one byte at a time, which only diverges
from CPython on non-ASCII query values, never used by the claims).
External collaborators (the singer-sdk framework, dateutil.parser.parse,
the HTTP transport) are parameters of the model.
-/

set_option autoImplicit false

namespace TapGitlab

/-- Core scan of Python str.replace for a nonempty pattern: replaces the
leftmost, non-overlapping occurrences of `pat` by `rep`.  The first
argument counts characters of a recognized occurrence still to be
consumed, so the recursion is structural in the scanned list. -/
def replaceAux (pat rep : List Char) : Nat → List Char → List Char
  | _, [] => []
  | k + 1, _ :: cs => replaceAux pat rep k cs
  | 0, c :: cs =>
    if pat <+: (c :: cs) then rep ++ replaceAux pat rep (pat.length - 1) cs
    else c :: replaceAux pat rep 0 cs

/-- Python str.replace on char lists.  The empty pattern inserts `rep`
before every character and at the end, as CPython does. -/
def pyReplace (s pat rep : List Char) : List Char :=
  match pat with
  | [] => rep ++ (s.map (fun c => c :: rep)).flatten
  | p :: ps => replaceAux (p :: ps) rep 0 s

/-- Python str.rstrip with a single strip character. -/
def pyRstrip (strip : Char) (s : String) : String :=
  ((s.toList.reverse.dropWhile (fun c => c = strip)).reverse).asString

/-- Characters kept verbatim by urllib.parse.quote / quote_plus
(ASCII letters, digits and the marks underscore, dot, dash, tilde). -/
def isUrlSafe (c : Char) : Bool :=
  c.isAlphanum || c = '_' || c = '.' || c = '-' || c = '~'

/-- Upper-case hex digit, as produced by urllib percent-encoding. -/
def hexDig (n : Nat) : Char :=
  match n with
  | 0 => '0' | 1 => '1' | 2 => '2' | 3 => '3' | 4 => '4'
  | 5 => '5' | 6 => '6' | 7 => '7' | 8 => '8' | 9 => '9'
  | 10 => 'A' | 11 => 'B' | 12 => 'C' | 13 => 'D' | 14 => 'E' | 15 => 'F'
  | _ => '0'

/-- UTF-8 bytes of one character (CPython encodes values to UTF-8 before
percent-encoding). -/
def utf8Bytes (c : Char) : List Nat :=
  let n := c.toNat
  if n < 0x80 then [n]
  else if n < 0x800 then [0xC0 + n / 0x40, 0x80 + n % 0x40]
  else if n < 0x10000 then
    [0xE0 + n / 0x1000, 0x80 + n / 0x40 % 0x40, 0x80 + n % 0x40]
  else
    [0xF0 + n / 0x40000, 0x80 + n / 0x1000 % 0x40, 0x80 + n / 0x40 % 0x40,
      0x80 + n % 0x40]

/-- Percent-encoding of one byte. -/
def percentByte (b : Nat) : List Char :=
  ['%', hexDig (b / 16 % 16), hexDig (b % 16)]

/-- Encoding of one character under urllib.parse.quote_plus with an empty
safe set: safe characters kept, a space becomes a plus, everything else is
percent-encoded byte-wise. -/
def encodeChar (c : Char) : List Char :=
  if isUrlSafe c then [c]
  else if c = ' ' then ['+']
  else ((utf8Bytes c).map percentByte).flatten

/-- urllib.parse.quote_plus with the default empty safe set, as used by
GitLabStream._url_encode. -/
def quotePlus (s : List Char) : List Char :=
  (s.map encodeChar).flatten

/-- Value of one hex digit character, both cases accepted (urllib.unquote). -/
def hexVal (c : Char) : Option Nat :=
  if '0' ≤ c ∧ c ≤ '9' then some (c.toNat - 48)
  else if 'a' ≤ c ∧ c ≤ 'f' then some (c.toNat - 87)
  else if 'A' ≤ c ∧ c ≤ 'F' then some (c.toNat - 55)
  else none

/-- Percent-decoding as in urllib.parse.unquote: valid percent pairs are
decoded byte-wise, invalid escapes are kept literally. -/
def percentDecode : List Char → List Char
  | [] => []
  | '%' :: h1 :: h2 :: rest =>
    match hexVal h1, hexVal h2 with
    | some a, some b => Char.ofNat (16 * a + b) :: percentDecode rest
    | _, _ => '%' :: percentDecode (h1 :: h2 :: rest)
  | c :: rest => c :: percentDecode rest

/-- Decoding applied by parse_qsl to each name and value: plus signs become
spaces, then percent escapes are decoded. -/
def unquotePlus (s : List Char) : List Char :=
  percentDecode (pyReplace s ['+'] [' '])

/-- Python str.split with maxsplit one: split at the first occurrence of
`sep`, or none when `sep` does not occur. -/
def splitFirst (sep : Char) : List Char → Option (List Char × List Char)
  | [] => none
  | c :: cs =>
    if c = sep then some ([], cs)
    else (splitFirst sep cs).map (fun p => (c :: p.1, p.2))

/-- Python str.split with an explicit single-character separator: every
occurrence separates two (possibly empty) fields. -/
def pySplitChar (sep : Char) : List Char → List (List Char)
  | [] => [[]]
  | c :: cs =>
    match pySplitChar sep cs with
    | [] => [[c]]
    | h :: t => if c = sep then [] :: h :: t else (c :: h) :: t

/-- Scheme characters allowed after the leading letter by urllib.parse. -/
def isSchemeChar (c : Char) : Bool :=
  c.isAlphanum || c = '+' || c = '-' || c = '.'

/-- Removal of a leading url scheme (urllib.parse.urlsplit): when the text
before the first colon is a nonempty valid scheme it is dropped together
with the colon, otherwise the input is unchanged. -/
def dropScheme (l : List Char) : List Char :=
  match splitFirst ':' l with
  | none => l
  | some (before, after) =>
    match before with
    | [] => l
    | c :: cs => if c.isAlpha && cs.all isSchemeChar then after else l

/-- Path component returned by urllib.parse.urlparse: scheme and network
location are removed, fragment and query are cut off. -/
def urlparsePath (l : List Char) : List Char :=
  let l1 := dropScheme l
  let l2 :=
    if l1.take 2 = ['/', '/'] then
      (l1.drop 2).dropWhile (fun c => ¬(c = '/' ∨ c = '?' ∨ c = '#'))
    else l1
  (l2.takeWhile (fun c => c ≠ '#')).takeWhile (fun c => c ≠ '?')

/-- Query component returned by urllib.parse.urlparse: the text after the
first question mark of the pre-fragment part of the url. -/
def urlQuery (l : List Char) : List Char :=
  match splitFirst '?' (l.takeWhile (fun c => c ≠ '#')) with
  | none => []
  | some p => p.2

/-- urllib.parse.parse_qsl with default options: fields are split on
ampersands, empty fields and fields without an equals sign or with an empty
value are skipped, names and values are plus-and-percent decoded. -/
def parseQsl (qs : List Char) : List (List Char × List Char) :=
  (qs.splitOn '&').filterMap (fun field =>
    if field = [] then none
    else
      match splitFirst '=' field with
      | none => none
      | some (n, v) =>
        if v = [] then none else some (unquotePlus n, unquotePlus v))

/-- First-match association lookup on char-list keys. -/
def lookupL {α : Type} (l : List (List Char × α)) (k : List Char) : Option α :=
  (l.find? (fun p => p.1 = k)).map Prod.snd

/-- Grouping step of urllib.parse.parse_qs: values of repeated names are
collected in first-occurrence order. -/
def groupPairs (acc : List (List Char × List (List Char))) :
    List (List Char × List Char) → List (List Char × List (List Char))
  | [] => acc
  | (k, v) :: rest =>
    if (acc.map Prod.fst).contains k then
      groupPairs (acc.map (fun p => if p.1 = k then (p.1, p.2 ++ [v]) else p)) rest
    else groupPairs (acc ++ [(k, [v])]) rest

/-- urllib.parse.parse_qs with default options. -/
def parse_qs (qs : List Char) : List (List Char × List (List Char)) :=
  groupPairs [] (parseQsl qs)

/-- Configuration and context values as passed around by the tap: the
Python values are strings, ints or bools and are stringified with str()
before url-encoding. -/
inductive Value where
  | vstr (s : String)
  | vint (n : Int)
  | vbool (b : Bool)
deriving DecidableEq

/-- Python str() on the modelled value types. -/
def pyStr : Value → String
  | .vstr s => s
  | .vint n => toString n
  | .vbool b => if b then "True" else "False"

/-- First-match association lookup on string keys. -/
def lookupS {α : Type} (l : List (String × α)) (k : String) : Option α :=
  (l.find? (fun p => p.1 = k)).map Prod.snd

/-- Python dict.update: values of existing keys are overwritten in place,
new keys are appended in iteration order. -/
def dictUpdate {α : Type} (base upd : List (List Char × α)) : List (List Char × α) :=
  upd.foldl
    (fun acc kv =>
      if (acc.map Prod.fst).contains kv.1 then
        acc.map (fun p => if p.1 = kv.1 then (p.1, kv.2) else p)
      else acc ++ [kv])
    base

/-- Module constant DEFAULT_REST_API_URL of client.py. -/
def DEFAULT_REST_API_URL : String := "https://gitlab.com/api/v4"

/-- An HTTP response as seen by get_next_page_token: the url of the request
that produced it (requests keeps it on response.request.url), the response
headers, and the JSON body, which for the paginated GitLab endpoints is a
list of records with string-valued fields. -/
structure HttpResponse where
  requestUrl : String
  headers : List (String × String)
  body : List (List (String × String))
deriving DecidableEq

/-- ASCII lower-casing of one character (header names are ASCII). -/
def lowerChar (c : Char) : Char :=
  if 'A' ≤ c ∧ c ≤ 'Z' then Char.ofNat (c.toNat + 32) else c

/-- requests.models.CaseInsensitiveDict.get: header lookup ignoring case,
defaulting to none. -/
def headersGet (hs : List (String × String)) (key : String) : Option String :=
  (hs.find? (fun p => p.1.toList.map lowerChar = key.toList.map lowerChar)).map Prod.snd

/-- GitLabStream.url_base: the api_url setting (config.get with the module
default), trailing slashes stripped, with /api/v4 appended when the parsed
url has an empty path component. -/
def url_base (api_url : Option String) : String :=
  let result := pyRstrip '/' (api_url.getD DEFAULT_REST_API_URL)
  if urlparsePath result.toList = [] then result ++ "/api/v4" else result

/-- GitLabStream._url_encode: str() then urllib.parse.quote_plus. -/
def url_encode (val : Value) : List Char :=
  quotePlus (pyStr val).toList

/-- GitLabStream.get_next_page_token: the X-Next-Page response header, or
none when the header is absent. -/
def get_next_page_token (response : HttpResponse) : Option String :=
  headersGet response.headers "X-Next-Page"

/-- The api_url setting of the configuration, a string when present (as in
the tap's declared settings). -/
def config_api_url (config : List (List Char × Value)) : Option String :=
  match lookupL config "api_url".toList with
  | some (.vstr s) => some s
  | _ => none

/-- GitLabStream.get_url: url_base joined with the path, then for each key
of dict(config) updated by the context (in dict iteration order), every
literal occurrence of the braced key is replaced by the url-encoded value.
The result is the char list of the url string.  The logger.debug call of
the Python body is a no-op here. -/
def get_url (config : List (List Char × Value)) (context : Option (List (List Char × Value)))
    (path : String) : List Char :=
  let url := (url_base (config_api_url config)).toList ++ path.toList
  let vals := dictUpdate config (context.getD [])
  vals.foldl
    (fun u kv =>
      let searchText := '{' :: (kv.1 ++ ['}'])
      if searchText <:+: u then pyReplace u searchText (url_encode kv.2) else u)
    url

/-- Enrichment loop of GitLabStream.post_process: every context key that is
declared among the schema properties and missing from the result is copied
into the result. -/
def enrich (result : List (String × Value)) (context : List (String × Value))
    (props : List String) : List (String × Value) :=
  context.foldl
    (fun res kv =>
      if props.contains kv.1 ∧ lookupS res kv.1 = none then res ++ [(kv.1, kv.2)]
      else res)
    result

/-- GitLabStream.post_process.  The generic framework step
(super().post_process) is an external collaborator; its outcome on the raw
row is the `superResult` parameter (none models a discarded record).  A
surviving record with a null context trips the assert statement, modelled
as an error. -/
def post_process (superResult : Option (List (String × Value)))
    (context : Option (List (String × Value))) (props : List String) :
    Except String (Option (List (String × Value))) :=
  match superResult with
  | none => .ok none
  | some result =>
    match context with
    | none => .error "AssertionError"
    | some ctx => .ok (some (enrich result ctx props))

/-- Cutoff extraction of NoSinceProjectBasedStream.get_next_page_token: the
first value of the bookmark parameter in the parsed query parameters, its
spaces reverted to plus signs; none when the parameter is absent, and none
when indexing its value list raises IndexError (the try/except block). -/
def extractCutoff (params : List (List Char × List (List Char)))
    (name : List Char) : Option (List Char) :=
  match lookupL params name with
  | none => none
  | some [] => none
  | some (v :: _) => some (pyReplace v [' '] ['+'])

/-- Pagination decision of NoSinceProjectBasedStream.get_next_page_token
after the request parameters have been parsed.  `parseTs` models
dateutil.parser.parse composed with datetime comparison (an order
embedding into Int); `replication_key` is the stream's replication key
field.  Looking up the replication key on the last record raises KeyError
in Python when the field is missing, modelled as an error. -/
def decideNext (parseTs : List Char → Int) (replication_key : String)
    (params : List (List Char × List (List Char))) (name : List Char)
    (body : List (List (String × String))) (native : Option String) :
    Except String (Option String) :=
  match extractCutoff params name with
  | none => .ok native
  | some cutoff =>
    match body.getLast? with
    | none => .ok none
    | some lastRecord =>
      match lookupS lastRecord replication_key with
      | none => .error "KeyError"
      | some v =>
        if parseTs v.toList < parseTs cutoff then .ok none else .ok native

/-- NoSinceProjectBasedStream.get_next_page_token: parse the query string
of the sent request, extract the bookmark cutoff, and decide; with no
cutoff, or a last record not older than the cutoff, defer to the native
GitLabStream.get_next_page_token. -/
def nosince_get_next_page_token (parseTs : List Char → Int)
    (replication_key : String) (bookmark_param_name : List Char)
    (response : HttpResponse) : Except String (Option String) :=
  decideNext parseTs replication_key
    (parse_qs (urlQuery response.requestUrl.toList)) bookmark_param_name
    response.body (get_next_page_token response)

/-- GroupBasedStream.partitions.  The groups setting is a string in the tap
configuration; a non-string value would fail the .split attribute access,
modelled as an error. -/
def partitions (name path : String) (config : List (List Char × Value)) :
    Except String (List (List (String × String))) :=
  if "\x7bgroup_id\x7d".toList <:+: path.toList then
    match lookupL config "groups".toList with
    | none =>
      .error ("Missing `groups` setting which is required for the '" ++ name
        ++ "' stream.")
    | some (.vstr g) =>
      .ok ((pySplitChar ' ' g.toList).map (fun id => [("group_id", id.asString)]))
    | some _ => .error "AttributeError"
  else
    .error ("Could not detect partition type for Gitlab stream '" ++ name
      ++ "' (" ++ path ++ "). Expected a URL path containing "
      ++ "'\x7bproject_path\x7d' or '\x7bgroup_id\x7d'. ")

/-- Brace-freeness: neither placeholder delimiter occurs in the text. -/
def braceFree (l : List Char) : Bool :=
  l.all (fun c => c ≠ '{' && c ≠ '}')

/-- One item of a url path template: literal text or a braced placeholder. -/
inductive TItem where
  | lit (s : List Char)
  | hole (k : List Char)
deriving DecidableEq

/-- Rendering of a template under a partial substitution: substituted
placeholders become their assigned text, unresolved placeholders keep
their literal braced spelling. -/
def renderT (σ : List Char → Option (List Char)) : List TItem → List Char
  | [] => []
  | .lit s :: rest => s ++ renderT σ rest
  | .hole k :: rest =>
    (match σ k with
     | some v => v
     | none => '{' :: (k ++ ['}'])) ++ renderT σ rest

/-- Well-formedness of one template item: its text is brace-free. -/
def wfItem : TItem → Bool
  | .lit s => braceFree s
  | .hole k => braceFree k

/-- Well-formedness of a template: all literal segments and placeholder
names are brace-free, so the braces of the template are exactly the
placeholder delimiters. -/
def wfTpl (tpl : List TItem) : Bool :=
  tpl.all wfItem

/-- The literal text of a template: its rendering with nothing
substituted. -/
def tplText (tpl : List TItem) : List Char :=
  renderT (fun _ => none) tpl

/-! Helper lemmas. -/

theorem asString_toList (s : String) : s.toList.asString = s := by
  cases s
  rfl

theorem lookupS_cons {α : Type} (a : String) (b : α) (l : List (String × α)) (k : String) :
    lookupS ((a, b) :: l) k = if a = k then some b else lookupS l k := by
  by_cases h : a = k <;> simp [lookupS, List.find?, h]

theorem lookupS_append {α : Type} (l₁ l₂ : List (String × α)) (k : String) :
    lookupS (l₁ ++ l₂) k = (lookupS l₁ k).or (lookupS l₂ k) := by
  induction l₁ with
  | nil => simp [lookupS]
  | cons p rest ih =>
    rcases p with ⟨a, b⟩
    by_cases h : a = k <;> simp [lookupS_cons, h, ih]

theorem lookupS_eq_none_of_not_mem {α : Type} (l : List (String × α)) (k : String)
    (h : k ∉ l.map Prod.fst) : lookupS l k = none := by
  induction l with
  | nil => rfl
  | cons p rest ih =>
    rcases p with ⟨a, b⟩
    simp only [List.map_cons, List.mem_cons] at h
    push_neg at h
    rw [lookupS_cons, if_neg (fun ha => h.1 ha.symm)]
    exact ih h.2

/-! C9 — REST base url. -/

/-- C9: for every configured api_url override, trailing slashes are
stripped and /api/v4 is appended exactly when the parsed url path of the
stripped override is empty; with no override the default root (already
containing /api/v4) is used; both 'https://gitlab.com' and
'https://gitlab.com/' become 'https://gitlab.com/api/v4'. -/
theorem c9_url_base_spec :
    url_base none = "https://gitlab.com/api/v4" ∧
    url_base (some "https://gitlab.com") = "https://gitlab.com/api/v4" ∧
    url_base (some "https://gitlab.com/") = "https://gitlab.com/api/v4" ∧
    ∀ u : String,
      url_base (some u) =
        (if urlparsePath (pyRstrip '/' u).toList = [] then pyRstrip '/' u ++ "/api/v4"
         else pyRstrip '/' u) := by
  refine ⟨by decide, by decide, by decide, fun u => rfl⟩

/-! C10 — post_process with a null context. -/

/-- C10: when the framework's generic post-processing step returns a
surviving record and post_process was called with context equal to None,
the assert statement fails (AssertionError) instead of returning the
record. -/
theorem c10_post_process_null_context (result : List (String × Value)) (props : List String) :
    post_process (some result) none props = .error "AssertionError" := rfl

/-! C4 — native pagination token. -/

/-- C4 counterexample: an X-Next-Page header that is present but empty
yields the empty-string token, not the None token the claim assigns to
the absent-or-empty case. -/
theorem c4_counterexample :
    get_next_page_token
        ⟨"https://gitlab.com/api/v4/projects", [("X-Next-Page", "")], []⟩ = some "" ∧
    some "" ≠ (none : Option String) := ⟨rfl, by simp⟩

/-- C4 amended: the returned token equals the X-Next-Page response header
value under the case-insensitive header lookup — a present header value v
(even the empty string) yields token v, and an absent header yields None
(pagination ends); an empty-string token is falsy for the calling
framework but is not the None token. -/
theorem c4_next_page_token_header (resp : HttpResponse) :
    get_next_page_token resp = headersGet resp.headers "X-Next-Page" ∧
    (headersGet resp.headers "X-Next-Page" = none → get_next_page_token resp = none) ∧
    ∀ v, headersGet resp.headers "X-Next-Page" = some v →
      get_next_page_token resp = some v :=
  ⟨rfl, fun h => h, fun _ h => h⟩

/-- C4 witness: a response with header X-Next-Page: 3 yields exactly the
token "3". -/
theorem c4_witness :
    get_next_page_token ⟨"https://gitlab.com/api/v4/projects", [("X-Next-Page", "3")], []⟩
      = some "3" :=
  (c4_next_page_token_header
    ⟨"https://gitlab.com/api/v4/projects", [("X-Next-Page", "3")], []⟩).2.2 "3" rfl

/-! C8 — record enrichment in post_process. -/

theorem enrich_cons (result : List (String × Value)) (kv : String × Value)
    (rest : List (String × Value)) (props : List String) :
    enrich result (kv :: rest) props =
      enrich
        (if props.contains kv.1 ∧ lookupS result kv.1 = none then result ++ [kv]
         else result)
        rest props := rfl

theorem enrich_lookup (ctx : List (String × Value)) (result : List (String × Value))
    (props : List String) (k : String) (hnd : (ctx.map Prod.fst).Nodup) :
    lookupS (enrich result ctx props) k =
      match lookupS result k with
      | some v => some v
      | none => if k ∈ props then lookupS ctx k else none := by
  induction ctx generalizing result with
  | nil =>
    have hbase : enrich result [] props = result := rfl
    rw [hbase]
    cases h : lookupS result k with
    | none => simp [h, lookupS]
    | some v => simp [h]
  | cons kv rest ih =>
    rcases kv with ⟨k₀, v₀⟩
    simp only [List.map_cons, List.nodup_cons] at hnd
    rw [enrich_cons]
    rw [ih _ hnd.2]
    by_cases hk : k = k₀
    · subst hk
      have hrest : lookupS rest k = none := lookupS_eq_none_of_not_mem _ _ hnd.1
      cases hres : lookupS result k with
      | some v =>
        rw [if_neg (by simp [hres])]
        simp [hres]
      | none =>
        by_cases hp : k ∈ props
        · rw [if_pos ⟨by simpa using hp, rfl⟩]
          simp [lookupS_append, hres, hrest, lookupS_cons, hp]
        · rw [if_neg (by simp [hp])]
          simp [hres, hrest, lookupS_cons, hp]
    · have hcons : lookupS ((k₀, v₀) :: rest) k = lookupS rest k := by
        rw [lookupS_cons, if_neg (fun h => hk h.symm)]
      have happ : ∀ cond : Prop, ∀ inst : Decidable cond,
          lookupS (if cond then result ++ [(k₀, v₀)] else result) k = lookupS result k := by
        intro cond inst
        by_cases hc : cond
        · rw [if_pos hc, lookupS_append, lookupS_cons]
          rw [if_neg (fun h => hk h.symm)]
          cases hres : lookupS result k <;> simp [lookupS]
        · rw [if_neg hc]
      rw [happ, hcons]

/-- C8: for a surviving record and non-null context, a context key's value
appears in the result exactly when the key is among the schema properties
and absent from the record; keys already present keep the record's value,
and keys not declared in the schema are never injected. -/
theorem c8_post_process_enrichment (result ctx : List (String × Value))
    (props : List String) (k : String) (hnd : (ctx.map Prod.fst).Nodup) :
    post_process (some result) (some ctx) props = .ok (some (enrich result ctx props)) ∧
    lookupS (enrich result ctx props) k =
      match lookupS result k with
      | some v => some v
      | none => if k ∈ props then lookupS ctx k else none :=
  ⟨rfl, enrich_lookup ctx result props k hnd⟩

/-- C8 witness: the record with id 5 under context group_id 20 and a
schema declaring group_id is enriched with the context value. -/
theorem c8_witness :
    post_process (some [("id", Value.vint 5)]) (some [("group_id", Value.vstr "20")])
        ["id", "group_id"]
      = .ok (some [("id", Value.vint 5), ("group_id", Value.vstr "20")]) :=
  (c8_post_process_enrichment [("id", Value.vint 5)] [("group_id", Value.vstr "20")]
    ["id", "group_id"] "group_id" (by decide)).1

/-! C1, C2, C3 — emulated pagination of NoSinceProjectBasedStream. -/

/-- C1 counterexample: a response whose JSON body is the empty list but
whose request carried no bookmark cutoff does not stop pagination — the
empty-body check lives inside the cutoff branch, so the method falls
through to the native header logic and returns the X-Next-Page token. -/
theorem c1_counterexample :
    nosince_get_next_page_token (fun _ => 0) "updated_at" "since".toList
        ⟨"https://gitlab.com/api/v4/projects/1/issues/1/notes",
          [("X-Next-Page", "3")], []⟩
      = .ok (some "3") ∧
    (Except.ok (some "3") : Except String (Option String)) ≠ .ok none := by
  constructor
  · rfl
  · simp

/-- C1 amended: a response whose JSON body is an empty list makes
get_next_page_token return None provided a bookmark cutoff value was
present in the sent request's query string; without a cutoff the decision
falls through to the native header logic instead. -/
theorem c1_empty_body_with_cutoff_stops (parseTs : List Char → Int)
    (replication_key : String) (bookmark_param_name : List Char)
    (resp : HttpResponse)
    (hcut : extractCutoff (parse_qs (urlQuery resp.requestUrl.toList))
      bookmark_param_name ≠ none)
    (hbody : resp.body = []) :
    nosince_get_next_page_token parseTs replication_key bookmark_param_name resp
      = .ok none := by
  unfold nosince_get_next_page_token decideNext
  cases h : extractCutoff (parse_qs (urlQuery resp.requestUrl.toList)) bookmark_param_name with
  | none => exact absurd h hcut
  | some c => simp [hbody]

/-- C1 amended witness: an empty body together with a since cutoff in the
request query stops pagination even though a next-page header is present. -/
theorem c1_witness :
    nosince_get_next_page_token (fun _ => 0) "updated_at" "since".toList
        ⟨"https://gitlab.com/api/v4/projects/1/issues/1/notes?since=2021-01-01+00%3A00%3A00",
          [("X-Next-Page", "3")], []⟩
      = .ok none :=
  c1_empty_body_with_cutoff_stops (fun _ => 0) "updated_at" "since".toList
    ⟨"https://gitlab.com/api/v4/projects/1/issues/1/notes?since=2021-01-01+00%3A00%3A00",
      [("X-Next-Page", "3")], []⟩
    (by decide) rfl

/-- C2: with a bookmark cutoff parsed from the sent request's query string
and a non-empty record page whose last record's replication-key timestamp
is strictly earlier than the cutoff timestamp, get_next_page_token
returns None. -/
theorem c2_last_record_older_stops (parseTs : List Char → Int)
    (replication_key : String) (bookmark_param_name : List Char)
    (resp : HttpResponse) (c : List Char) (v : String)
    (lastRecord : List (String × String))
    (hcut : extractCutoff (parse_qs (urlQuery resp.requestUrl.toList))
      bookmark_param_name = some c)
    (hlast : resp.body.getLast? = some lastRecord)
    (hfield : lookupS lastRecord replication_key = some v)
    (hlt : parseTs v.toList < parseTs c) :
    nosince_get_next_page_token parseTs replication_key bookmark_param_name resp
      = .ok none := by
  unfold nosince_get_next_page_token decideNext
  rw [hcut, hlast]
  have hlt2 : parseTs v.data < parseTs c := hlt
  simp [hfield, hlt2]

/-- C2 witness: cutoff since=2021-01-01+00:00:00 with last record
timestamp 2020-12-31T23:00:00 stops pagination (the timestamp order is an
order embedding of dateutil parsing in which the last record is strictly
earlier). -/
theorem c2_witness :
    nosince_get_next_page_token
        (fun l => if l = "2020-12-31T23:00:00".toList then 0 else 1)
        "updated_at" "since".toList
        ⟨"https://gitlab.com/api/v4/projects/1/issues/1/notes?since=2021-01-01+00:00:00",
          [("X-Next-Page", "2")],
          [[("id", "1"), ("updated_at", "2020-12-31T23:00:00")]]⟩
      = .ok none :=
  c2_last_record_older_stops
    (fun l => if l = "2020-12-31T23:00:00".toList then 0 else 1)
    "updated_at" "since".toList
    ⟨"https://gitlab.com/api/v4/projects/1/issues/1/notes?since=2021-01-01+00:00:00",
      [("X-Next-Page", "2")],
      [[("id", "1"), ("updated_at", "2020-12-31T23:00:00")]]⟩
    "2021-01-01+00:00:00".toList "2020-12-31T23:00:00"
    [("id", "1"), ("updated_at", "2020-12-31T23:00:00")]
    (by decide) rfl (by decide) (by decide)

/-- C3: when the bookmark parameter is absent from the parsed query string
of the sent request — including the case where indexing its value list
would raise IndexError — no error propagates and the decision falls
through to the native header-based logic. -/
theorem c3_no_cutoff_falls_through (parseTs : List Char → Int)
    (replication_key : String) (bookmark_param_name : List Char)
    (resp : HttpResponse)
    (h : lookupL (parse_qs (urlQuery resp.requestUrl.toList)) bookmark_param_name = none ∨
         lookupL (parse_qs (urlQuery resp.requestUrl.toList)) bookmark_param_name = some []) :
    nosince_get_next_page_token parseTs replication_key bookmark_param_name resp
      = .ok (get_next_page_token resp) := by
  unfold nosince_get_next_page_token decideNext extractCutoff
  rcases h with h | h <;> rw [h]

/-- C3 witness: a request without a since parameter defers to the native
X-Next-Page decision and raises nothing. -/
theorem c3_witness :
    nosince_get_next_page_token (fun _ => 0) "updated_at" "since".toList
        ⟨"https://gitlab.com/api/v4/projects/1/issues/1/notes?page=2",
          [("X-Next-Page", "7")], [[("id", "1")]]⟩
      = .ok (some "7") :=
  c3_no_cutoff_falls_through (fun _ => 0) "updated_at" "since".toList
    ⟨"https://gitlab.com/api/v4/projects/1/issues/1/notes?page=2",
      [("X-Next-Page", "7")], [[("id", "1")]]⟩
    (Or.inl (by decide))

/-! C6, C7 — group partitions. -/

theorem pySplitChar_ne_nil (sep : Char) (l : List Char) : pySplitChar sep l ≠ [] := by
  cases l with
  | nil => simp [pySplitChar]
  | cons c cs =>
    simp only [pySplitChar]
    cases h : pySplitChar sep cs with
    | nil => simp
    | cons h t => by_cases hc : c = sep <;> simp [hc]

theorem pySplitChar_no_sep (sep : Char) (l : List Char) (h : ∀ c ∈ l, c ≠ sep) :
    pySplitChar sep l = [l] := by
  induction l with
  | nil => rfl
  | cons c cs ih =>
    have hc : c ≠ sep := h c (by simp)
    have ihs : pySplitChar sep cs = [cs] := ih (fun x hx => h x (by simp [hx]))
    simp [pySplitChar, ihs, hc]

theorem pySplitChar_append_sep (sep : Char) (x t : List Char) (h : ∀ c ∈ x, c ≠ sep) :
    pySplitChar sep (x ++ sep :: t) = x :: pySplitChar sep t := by
  induction x with
  | nil =>
    simp only [List.nil_append, pySplitChar]
    cases ht : pySplitChar sep t with
    | nil => exact absurd ht (pySplitChar_ne_nil sep t)
    | cons a b => simp
  | cons c cs ih =>
    have hc : c ≠ sep := h c (by simp)
    have ihs := ih (fun y hy => h y (by simp [hy]))
    simp only [List.cons_append, pySplitChar, List.append_eq]
    rw [ihs]
    simp [hc]

theorem pySplitChar_intercalate (sep : Char) (chunks : List (List Char))
    (hne : chunks ≠ []) (hsep : ∀ ch ∈ chunks, ∀ c ∈ ch, c ≠ sep) :
    pySplitChar sep (List.intercalate [sep] chunks) = chunks := by
  induction chunks with
  | nil => exact absurd rfl hne
  | cons x rest ih =>
    cases rest with
    | nil =>
      rw [List.intercalate]
      simp only [List.intersperse_singleton, List.flatten, List.append_nil]
      exact pySplitChar_no_sep sep x (hsep x (by simp))
    | cons y t =>
      have hx : ∀ c ∈ x, c ≠ sep := hsep x (by simp)
      have hrest : List.intercalate [sep] (x :: y :: t)
          = x ++ sep :: List.intercalate [sep] (y :: t) := by
        simp [List.intercalate, List.intersperse]
      rw [hrest, pySplitChar_append_sep sep x _ hx]
      rw [ih (by simp) (fun ch hch => hsep ch (by simp [hch]))]

/-- C6: a stream whose path contains the group_id placeholder and whose
groups setting is a space-separated list of identifiers yields one
partition context per identifier, in order. -/
theorem c6_group_partitions (name path : String) (config : List (List Char × Value))
    (g : String) (ids : List String)
    (hpath : "\x7bgroup_id\x7d".toList <:+: path.toList)
    (hg : lookupL config "groups".toList = some (Value.vstr g))
    (hgl : g.toList = List.intercalate [' '] (ids.map String.toList))
    (hne : ids ≠ []) (hns : ∀ s ∈ ids, ∀ c ∈ s.toList, c ≠ ' ') :
    partitions name path config = .ok (ids.map (fun id => [("group_id", id)])) := by
  unfold partitions
  rw [if_pos hpath, hg]
  dsimp only
  rw [hgl, pySplitChar_intercalate ' ' (ids.map String.toList)
    (by simpa using hne)
    (by
      intro ch hch c hc
      rcases List.mem_map.mp hch with ⟨s, hs, rfl⟩
      exact hns s hs c hc)]
  simp [List.map_map, Function.comp]
  exact fun a _ => asString_toList a

/-- C6 witness: groups "10 20 30" on a group-scoped path yields the three
partition contexts in order. -/
theorem c6_witness :
    partitions "epics" "/groups/\x7bgroup_id\x7d/epics"
        [("groups".toList, Value.vstr "10 20 30")]
      = .ok [[("group_id", "10")], [("group_id", "20")], [("group_id", "30")]] :=
  c6_group_partitions "epics" "/groups/\x7bgroup_id\x7d/epics"
    [("groups".toList, Value.vstr "10 20 30")] "10 20 30" ["10", "20", "30"]
    (by decide) rfl (by decide) (by decide) (by decide)

/-- C7 counterexample: a path containing the project placeholder but not
the group placeholder raises the configuration error even though groups
are configured — a situation outside the two the claim allows. -/
theorem c7_counterexample :
    (partitions "issues" "/projects/\x7bproject_path\x7d/issues"
        [("groups".toList, Value.vstr "10")]).isOk = false ∧
    "\x7bproject_path\x7d".toList <:+: "/projects/\x7bproject_path\x7d/issues".toList ∧
    lookupL [("groups".toList, Value.vstr "10")] "groups".toList
      = some (Value.vstr "10") := by
  refine ⟨rfl, by decide, rfl⟩

/-- C7 amended: with the groups setting absent or a string, computing
partitions raises an error exactly when the path lacks the group_id
placeholder (whether or not a project placeholder is present) or the
placeholder is present but no groups setting is configured. -/
theorem c7_error_characterization (name path : String)
    (config : List (List Char × Value))
    (hstr : lookupL config "groups".toList = none ∨
      ∃ g, lookupL config "groups".toList = some (Value.vstr g)) :
    (partitions name path config).isOk = false ↔
      (¬ ("\x7bgroup_id\x7d".toList <:+: path.toList) ∨
        lookupL config "groups".toList = none) := by
  unfold partitions
  by_cases hp : "\x7bgroup_id\x7d".toList <:+: path.toList
  · rw [if_pos hp]
    have hp2 : ['{', 'g', 'r', 'o', 'u', 'p', '_', 'i', 'd', '}'] <:+: path.data := hp
    rcases hstr with h | ⟨g, h⟩ <;> rw [h] <;>
      simp [Except.isOk, Except.toBool, h, hp2]
  · rw [if_neg hp]
    have hp2 : ¬ (['{', 'g', 'r', 'o', 'u', 'p', '_', 'i', 'd', '}'] <:+: path.data) := hp
    simp [Except.isOk, Except.toBool, hp2]

/-- C7 amended witness: a path with neither placeholder errors even with
an empty configuration. -/
theorem c7_witness :
    (partitions "releases" "/releases" []).isOk = false :=
  (c7_error_characterization "releases" "/releases" [] (Or.inl rfl)).mpr
    (Or.inl (by decide))

/-! C5 — get_url placeholder substitution. -/

theorem braceFree_no_lbrace {l : List Char} (h : braceFree l = true) :
    ∀ c ∈ l, c ≠ '{' := by
  simp only [braceFree, List.all_eq_true, Bool.and_eq_true, decide_eq_true_eq] at h
  exact fun c hc => (h c hc).1

theorem braceFree_no_rbrace {l : List Char} (h : braceFree l = true) :
    ∀ c ∈ l, c ≠ '}' := by
  simp only [braceFree, List.all_eq_true, Bool.and_eq_true, decide_eq_true_eq] at h
  exact fun c hc => (h c hc).2

theorem replaceAux_countdown (pat rep : List Char) (l t : List Char) :
    replaceAux pat rep l.length (l ++ t) = replaceAux pat rep 0 t := by
  induction l with
  | nil => rfl
  | cons c cs ih => simpa [replaceAux] using ih

theorem replaceAux_skip (p0 : Char) (p rep : List Char) (s t : List Char)
    (h : ∀ c ∈ s, c ≠ p0) :
    replaceAux (p0 :: p) rep 0 (s ++ t) = s ++ replaceAux (p0 :: p) rep 0 t := by
  induction s with
  | nil => rfl
  | cons c cs ih =>
    have hc : c ≠ p0 := h c (by simp)
    have hnp : ¬ ((p0 :: p) <+: (c :: (cs ++ t))) := by
      intro hp
      exact hc ((List.cons_prefix_cons.mp hp).1.symm)
    simp only [List.cons_append, replaceAux, List.append_eq, if_neg hnp]
    rw [ih (fun y hy => h y (by simp [hy]))]

theorem placeholder_key_eq (k : List Char) :
    ∀ (j t : List Char), (∀ c ∈ k, c ≠ '}') → (∀ c ∈ j, c ≠ '}') →
      (k ++ ['}'] <+: j ++ ('}' :: t)) → k = j := by
  induction k with
  | nil =>
    intro j t _ hj hp
    cases j with
    | nil => rfl
    | cons d j' =>
      exfalso
      simp only [List.nil_append, List.cons_append, List.cons_prefix_cons] at hp
      exact hj d (by simp) hp.1.symm
  | cons a k' ih =>
    intro j t hk hj hp
    cases j with
    | nil =>
      exfalso
      simp only [List.cons_append, List.nil_append, List.cons_prefix_cons] at hp
      exact hk a (by simp) hp.1
    | cons d j' =>
      simp only [List.cons_append, List.cons_prefix_cons] at hp
      have h1 := hp.1
      have h2 := ih j' t (fun c hc => hk c (by simp [hc])) (fun c hc => hj c (by simp [hc])) hp.2
      rw [h1, h2]

theorem replaceAux_hit (k rep t : List Char) :
    replaceAux ('{' :: (k ++ ['}'])) rep 0 ('{' :: (k ++ ('}' :: t)))
      = rep ++ replaceAux ('{' :: (k ++ ['}'])) rep 0 t := by
  have hpre : ('{' :: (k ++ ['}'])) <+: ('{' :: (k ++ ('}' :: t))) := by
    rw [List.cons_prefix_cons]
    refine ⟨rfl, ?_⟩
    have : k ++ ('}' :: t) = (k ++ ['}']) ++ t := by simp
    rw [this]
    exact List.prefix_append _ _
  simp only [replaceAux, if_pos hpre]
  congr 1
  have hlen : ('{' :: (k ++ ['}'])).length - 1 = (k ++ ['}']).length := by
    simp
  rw [hlen]
  have : k ++ ('}' :: t) = (k ++ ['}']) ++ t := by simp
  rw [this, replaceAux_countdown]

theorem replaceAux_miss (k j rep t : List Char)
    (hk : braceFree k = true) (hj : braceFree j = true) (hne : k ≠ j) :
    replaceAux ('{' :: (k ++ ['}'])) rep 0 ('{' :: (j ++ ('}' :: t)))
      = '{' :: (j ++ ('}' :: replaceAux ('{' :: (k ++ ['}'])) rep 0 t)) := by
  have hnp : ¬ (('{' :: (k ++ ['}'])) <+: ('{' :: (j ++ ('}' :: t)))) := by
    intro hp
    have h2 := (List.cons_prefix_cons.mp hp).2
    exact hne (placeholder_key_eq k j t (braceFree_no_rbrace hk) (braceFree_no_rbrace hj) h2)
  simp only [replaceAux, if_neg hnp]
  have hskip : ∀ c ∈ j ++ ['}'], c ≠ '{' := by
    intro c hc
    rcases List.mem_append.mp hc with hc | hc
    · exact braceFree_no_lbrace hj c hc
    · simp only [List.mem_singleton] at hc
      rw [hc]
      decide
  have : j ++ ('}' :: t) = (j ++ ['}']) ++ t := by simp
  rw [this, replaceAux_skip '{' _ rep _ t hskip]
  simp

theorem replaceAux_unmatched (p0 : Char) (p rep : List Char) (s : List Char)
    (h : ¬ ((p0 :: p) <:+: s)) :
    replaceAux (p0 :: p) rep 0 s = s := by
  induction s with
  | nil => rfl
  | cons c cs ih =>
    have hnp : ¬ ((p0 :: p) <+: (c :: cs)) := by
      intro hpre
      rcases hpre with ⟨t1, ht1⟩
      exact h ⟨[], t1, by simpa using ht1⟩
    have hni : ¬ ((p0 :: p) <:+: cs) := by
      intro hi
      rcases hi with ⟨s1, t1, hst⟩
      exact h ⟨c :: s1, t1, by simp [← hst]⟩
    simp only [replaceAux, if_neg hnp]
    rw [ih hni]

theorem hexDig_braceFree (n : Nat) :
    (decide (hexDig n ≠ '{') && decide (hexDig n ≠ '}')) = true := by
  unfold hexDig
  split <;> decide

theorem encodeChar_braceFree (c : Char) : braceFree (encodeChar c) = true := by
  unfold encodeChar
  by_cases hs : isUrlSafe c = true
  · rw [if_pos hs]
    simp only [braceFree, List.all_eq_true, List.mem_singleton]
    intro x hx
    rw [hx]
    by_cases h1 : c = '{'
    · subst h1
      exact absurd hs (by decide)
    · by_cases h2 : c = '}'
      · subst h2
        exact absurd hs (by decide)
      · simp [h1, h2]
  · rw [if_neg hs]
    by_cases hsp : c = ' '
    · rw [if_pos hsp]
      decide
    · rw [if_neg hsp]
      simp only [braceFree, List.all_eq_true]
      intro x hx
      rcases (by simpa using hx : ∃ b, b ∈ utf8Bytes c ∧ x ∈ percentByte b)
        with ⟨b, _, hxb⟩
      simp only [percentByte, List.mem_cons, List.mem_singleton,
        List.not_mem_nil, or_false] at hxb
      rcases hxb with rfl | rfl | rfl
      · decide
      · exact hexDig_braceFree _
      · exact hexDig_braceFree _

theorem quotePlus_braceFree (s : List Char) : braceFree (quotePlus s) = true := by
  simp only [quotePlus, braceFree, List.all_eq_true]
  intro x hx
  rcases List.mem_flatten.mp hx with ⟨l, hl, hxl⟩
  rcases List.mem_map.mp hl with ⟨c, _, rfl⟩
  have h := encodeChar_braceFree c
  simp only [braceFree, List.all_eq_true] at h
  exact h x hxl

theorem url_encode_braceFree (v : Value) : braceFree (url_encode v) = true :=
  quotePlus_braceFree _

theorem renderT_congr (σ σ' : List Char → Option (List Char)) (tpl : List TItem)
    (h : ∀ k, σ k = σ' k) : renderT σ tpl = renderT σ' tpl := by
  induction tpl with
  | nil => rfl
  | cons it rest ih =>
    cases it with
    | lit s => simp only [renderT, ih]
    | hole k => simp only [renderT, ih, h k]

theorem replace_render (tpl : List TItem) (σ : List Char → Option (List Char))
    (k rep : List Char)
    (hwf : wfTpl tpl = true)
    (hσ : ∀ j v, σ j = some v → braceFree v = true)
    (hk : braceFree k = true) (hσk : σ k = none) :
    replaceAux ('{' :: (k ++ ['}'])) rep 0 (renderT σ tpl)
      = renderT (fun j => if j = k then some rep else σ j) tpl := by
  induction tpl with
  | nil => rfl
  | cons it rest ih =>
    have hwf1 : wfItem it = true := by
      simp only [wfTpl, List.all_eq_true] at hwf
      exact hwf it (by simp)
    have hwfr : wfTpl rest = true := by
      simp only [wfTpl, List.all_eq_true] at hwf ⊢
      exact fun x hx => hwf x (by simp [hx])
    cases it with
    | lit s =>
      simp only [renderT]
      rw [replaceAux_skip '{' _ rep s _ (braceFree_no_lbrace hwf1)]
      rw [ih hwfr]
    | hole j =>
      cases hσj : σ j with
      | some v =>
        have hjk : j ≠ k := fun hjk => by
          rw [hjk, hσk] at hσj
          exact Option.noConfusion hσj
        simp only [renderT, hσj, if_neg hjk]
        rw [replaceAux_skip '{' _ rep v _ (braceFree_no_lbrace (hσ j v hσj))]
        rw [ih hwfr]
      | none =>
        by_cases hjk : j = k
        · subst hjk
          simp only [renderT, hσj]
          have hsh : ('{' :: (j ++ ['}'])) ++ renderT σ rest
              = '{' :: (j ++ ('}' :: renderT σ rest)) := by simp
          rw [hsh, replaceAux_hit, ih hwfr]
          simp
        · simp only [renderT, hσj, if_neg hjk]
          have hsh : ('{' :: (j ++ ['}'])) ++ renderT σ rest
              = '{' :: (j ++ ('}' :: renderT σ rest)) := by simp
          rw [hsh, replaceAux_miss k j rep _ hk hwf1 (fun h => hjk h.symm)]
          rw [ih hwfr]
          simp

theorem lookupL_cons {α : Type} (a : List Char) (b : α) (l : List (List Char × α))
    (k : List Char) :
    lookupL ((a, b) :: l) k = if a = k then some b else lookupL l k := by
  by_cases h : a = k <;> simp [lookupL, List.find?, h]

theorem lookupL_append {α : Type} (l₁ l₂ : List (List Char × α)) (k : List Char) :
    lookupL (l₁ ++ l₂) k = (lookupL l₁ k).or (lookupL l₂ k) := by
  induction l₁ with
  | nil => simp [lookupL]
  | cons p rest ih =>
    rcases p with ⟨a, b⟩
    by_cases h : a = k <;> simp [lookupL_cons, h, ih]

theorem lookupL_eq_none_of_not_mem {α : Type} (l : List (List Char × α)) (k : List Char)
    (h : k ∉ l.map Prod.fst) : lookupL l k = none := by
  induction l with
  | nil => rfl
  | cons p rest ih =>
    rcases p with ⟨a, b⟩
    simp only [List.map_cons, List.mem_cons] at h
    push_neg at h
    rw [lookupL_cons, if_neg (fun ha => h.1 ha.symm)]
    exact ih h.2

theorem map_update_keys {α : Type} (base : List (List Char × α)) (k : List Char) (v : α) :
    (base.map (fun p => if p.1 = k then (p.1, v) else p)).map Prod.fst
      = base.map Prod.fst := by
  induction base with
  | nil => rfl
  | cons p rest ih =>
    by_cases h : p.1 = k <;> simp [h, ih]

theorem lookupL_map_update_self {α : Type} (base : List (List Char × α))
    (k : List Char) (v : α) (hmem : k ∈ base.map Prod.fst) :
    lookupL (base.map (fun p => if p.1 = k then (p.1, v) else p)) k = some v := by
  induction base with
  | nil => simp at hmem
  | cons p rest ih =>
    by_cases h : p.1 = k
    · simp only [List.map_cons, if_pos h]
      rw [lookupL_cons, if_pos h]
    · simp only [List.map_cons, if_neg h]
      rw [lookupL_cons, if_neg h]
      apply ih
      simp only [List.map_cons, List.mem_cons] at hmem
      rcases hmem with hmem | hmem
      · exact absurd hmem.symm h
      · exact hmem

theorem lookupL_map_update_ne {α : Type} (base : List (List Char × α))
    (k j : List Char) (v : α) (hne : j ≠ k) :
    lookupL (base.map (fun p => if p.1 = k then (p.1, v) else p)) j = lookupL base j := by
  induction base with
  | nil => rfl
  | cons p rest ih =>
    by_cases h : p.1 = k
    · simp only [List.map_cons, if_pos h]
      rw [lookupL_cons, lookupL_cons]
      have hpj : ¬ (p.1 = j) := by
        rw [h]
        exact fun hkj => hne hkj.symm
      rw [if_neg hpj, if_neg hpj, ih]
    · simp only [List.map_cons, if_neg h]
      rw [lookupL_cons]
      rcases p with ⟨a, b⟩
      rw [lookupL_cons, ih]

theorem dictUpdate_cons {α : Type} (base : List (List Char × α)) (kv : List Char × α)
    (rest : List (List Char × α)) :
    dictUpdate base (kv :: rest) =
      dictUpdate
        (if (base.map Prod.fst).contains kv.1 then
          base.map (fun p => if p.1 = kv.1 then (p.1, kv.2) else p)
         else base ++ [kv])
        rest := rfl

theorem keys_contains_iff (l : List (List Char)) (a : List Char) :
    l.contains a = true ↔ a ∈ l := List.elem_iff

theorem dictUpdate_step_lookup {α : Type} (base : List (List Char × α))
    (k₀ : List Char) (v₀ : α) (j : List Char) :
    lookupL
        (if (base.map Prod.fst).contains k₀ then
          base.map (fun p => if p.1 = k₀ then (p.1, v₀) else p)
         else base ++ [(k₀, v₀)]) j
      = if j = k₀ then some v₀ else lookupL base j := by
  by_cases hmem : k₀ ∈ base.map Prod.fst
  · rw [if_pos ((keys_contains_iff _ _).mpr hmem)]
    by_cases hj : j = k₀
    · subst hj
      rw [if_pos rfl]
      exact lookupL_map_update_self base j v₀ hmem
    · rw [if_neg hj]
      exact lookupL_map_update_ne base k₀ j v₀ hj
  · rw [if_neg (fun hc => hmem ((keys_contains_iff _ _).mp hc))]
    rw [lookupL_append]
    by_cases hj : j = k₀
    · subst hj
      rw [lookupL_eq_none_of_not_mem _ _ hmem, Option.none_or, if_pos rfl,
        lookupL_cons, if_pos rfl]
    · rw [if_neg hj, lookupL_cons, if_neg (fun h => hj h.symm)]
      have hnil : lookupL ([] : List (List Char × α)) j = none := rfl
      rw [hnil, Option.or_none]

theorem dictUpdate_lookup {α : Type} (upd base : List (List Char × α)) (j : List Char)
    (hnd : (upd.map Prod.fst).Nodup) :
    lookupL (dictUpdate base upd) j = (lookupL upd j).or (lookupL base j) := by
  induction upd generalizing base with
  | nil =>
    have h1 : dictUpdate base [] = base := rfl
    have h2 : lookupL ([] : List (List Char × α)) j = none := rfl
    rw [h1, h2, Option.none_or]
  | cons kv rest ih =>
    rcases kv with ⟨k₀, v₀⟩
    simp only [List.map_cons, List.nodup_cons] at hnd
    rw [dictUpdate_cons, ih _ hnd.2, dictUpdate_step_lookup, lookupL_cons]
    by_cases hj : j = k₀
    · subst hj
      have hrest : lookupL rest j = none := lookupL_eq_none_of_not_mem _ _ hnd.1
      simp [hrest]
    · simp [hj, Ne.symm hj]

theorem dictUpdate_keys_nodup {α : Type} (upd base : List (List Char × α))
    (hnd : (base.map Prod.fst).Nodup) :
    ((dictUpdate base upd).map Prod.fst).Nodup := by
  induction upd generalizing base with
  | nil => exact hnd
  | cons kv rest ih =>
    rw [dictUpdate_cons]
    apply ih
    by_cases hmem : kv.1 ∈ base.map Prod.fst
    · rw [if_pos ((keys_contains_iff _ _).mpr hmem)]
      rw [map_update_keys]
      exact hnd
    · rw [if_neg (fun hc => hmem ((keys_contains_iff _ _).mp hc))]
      simp only [List.map_append, List.map_cons, List.map_nil]
      exact List.Nodup.append hnd (by simp) (List.disjoint_singleton.mpr hmem)

theorem getUrl_fold (vals : List (List Char × Value)) (tpl : List TItem)
    (σ : List Char → Option (List Char))
    (hwf : wfTpl tpl = true)
    (hσ : ∀ j v, σ j = some v → braceFree v = true)
    (hkeys : ∀ kv ∈ vals, braceFree kv.1 = true)
    (hnd : (vals.map Prod.fst).Nodup)
    (hfresh : ∀ kv ∈ vals, σ kv.1 = none) :
    vals.foldl (fun u kv =>
        let searchText := '{' :: (kv.1 ++ ['}'])
        if searchText <:+: u then pyReplace u searchText (url_encode kv.2) else u)
      (renderT σ tpl)
    = renderT (fun j =>
        match lookupL vals j with
        | some v => some (url_encode v)
        | none => σ j) tpl := by
  induction vals generalizing σ with
  | nil =>
    exact renderT_congr _ _ tpl (fun k => rfl)
  | cons kv rest ih =>
    rcases kv with ⟨k₀, v₀⟩
    simp only [List.map_cons, List.nodup_cons] at hnd
    have hk₀ : braceFree k₀ = true := hkeys (k₀, v₀) (by simp)
    have hf₀ : σ k₀ = none := hfresh (k₀, v₀) (by simp)
    have hstep :
        (if ('{' :: (k₀ ++ ['}'])) <:+: renderT σ tpl then
          pyReplace (renderT σ tpl) ('{' :: (k₀ ++ ['}'])) (url_encode v₀)
         else renderT σ tpl)
        = replaceAux ('{' :: (k₀ ++ ['}'])) (url_encode v₀) 0 (renderT σ tpl) := by
      by_cases hin : ('{' :: (k₀ ++ ['}'])) <:+: renderT σ tpl
      · rw [if_pos hin]
        rfl
      · rw [if_neg hin]
        exact (replaceAux_unmatched '{' _ _ _ hin).symm
    have hrr := replace_render tpl σ k₀ (url_encode v₀) hwf hσ hk₀ hf₀
    simp only [List.foldl_cons]
    rw [hstep, hrr]
    rw [ih (fun j => if j = k₀ then some (url_encode v₀) else σ j)
      (fun j v hv => by
        have hv2 : (if j = k₀ then some (url_encode v₀) else σ j) = some v := hv
        by_cases hj : j = k₀
        · rw [if_pos hj] at hv2
          have hv3 : url_encode v₀ = v := Option.some.inj hv2
          rw [← hv3]
          exact url_encode_braceFree v₀
        · rw [if_neg hj] at hv2
          exact hσ j v hv2)
      (fun kv hkv => hkeys kv (by simp [hkv]))
      hnd.2
      (fun kv hkv => by
        have hne : kv.1 ≠ k₀ := by
          intro he
          exact hnd.1 (he ▸ List.mem_map_of_mem Prod.fst hkv)
        show (if kv.1 = k₀ then some (url_encode v₀) else σ kv.1) = none
        rw [if_neg hne]
        exact hfresh kv (by simp [hkv]))]
    apply renderT_congr
    intro j
    by_cases hj : j = k₀
    · subst hj
      have hrest : lookupL rest j = none := lookupL_eq_none_of_not_mem _ _ hnd.1
      simp [hrest, lookupL_cons]
    · have hne2 : ¬ (k₀ = j) := fun h => hj h.symm
      simp only [lookupL_cons, if_neg hne2]
      cases hlk : lookupL rest j with
      | none => simp [hlk, hj]
      | some v => simp [hlk]

/-- C5: for every path template (well-formed: brace-free literal segments
and placeholder names, rendered as url_base joined with the path) and every
configuration and context mapping with brace-free, Python-dict-unique
keys, each braced placeholder whose key appears in the merged mapping —
configuration overlaid by context, context winning on a key collision —
is replaced in the output url by the url-encoded string form of its value,
and each placeholder with no matching key remains untouched as the literal
braced text. -/
theorem c5_get_url_substitution (config : List (List Char × Value))
    (context : Option (List (List Char × Value))) (path : String) (tpl : List TItem)
    (hwf : wfTpl tpl = true)
    (htext : (url_base (config_api_url config)).toList ++ path.toList = tplText tpl)
    (hkeys : ∀ kv ∈ dictUpdate config (context.getD []), braceFree kv.1 = true)
    (hndc : (config.map Prod.fst).Nodup)
    (hndx : ((context.getD []).map Prod.fst).Nodup) :
    get_url config context path
      = renderT (fun j =>
          ((lookupL (context.getD []) j).or (lookupL config j)).map url_encode) tpl := by
  have h0 : get_url config context path
      = (dictUpdate config (context.getD [])).foldl
          (fun u kv =>
            let searchText := '{' :: (kv.1 ++ ['}'])
            if searchText <:+: u then pyReplace u searchText (url_encode kv.2) else u)
          ((url_base (config_api_url config)).toList ++ path.toList) := rfl
  have h1 : tplText tpl = renderT (fun _ => none) tpl := rfl
  rw [h0, htext, h1]
  rw [getUrl_fold (dictUpdate config (context.getD [])) tpl (fun _ => none) hwf
    (fun j v hv => Option.noConfusion hv) hkeys
    (dictUpdate_keys_nodup (context.getD []) config hndc)
    (fun kv _ => rfl)]
  apply renderT_congr
  intro j
  rw [dictUpdate_lookup _ _ j hndx]
  cases (lookupL (context.getD []) j).or (lookupL config j) with
  | none => rfl
  | some v => rfl

/-- C5 witness: resolving the project_path placeholder from the context
url-encodes the value (space to plus, slash to percent-2F) and leaves the
unmatched placeholder as the literal braced text. -/
theorem c5_witness :
    get_url
        [("api_url".toList, Value.vstr "https://gitlab.com"),
          ("private_token".toList, Value.vstr "tok")]
        (some [("project_path".toList, Value.vstr "g h/p")])
        "/projects/\x7bproject_path\x7d/issues/\x7bmissing\x7d"
      = "https://gitlab.com/api/v4/projects/g+h%2Fp/issues/\x7bmissing\x7d".toList := by
  have h := c5_get_url_substitution
    [("api_url".toList, Value.vstr "https://gitlab.com"),
      ("private_token".toList, Value.vstr "tok")]
    (some [("project_path".toList, Value.vstr "g h/p")])
    "/projects/\x7bproject_path\x7d/issues/\x7bmissing\x7d"
    [TItem.lit "https://gitlab.com/api/v4/projects/".toList,
      TItem.hole "project_path".toList,
      TItem.lit "/issues/".toList,
      TItem.hole "missing".toList]
    (by decide) (by decide) (by decide) (by decide) (by decide)
  rw [h]
  decide

end TapGitlab
